import Mathlib

/-!
# cache-benchmark: naive and blocked matrix multiplication

A shallow embedding of `src/mmult.cpp` and the properties of its two multipliers,
its line reader and the pair loop of its `main`.

Modelling conventions.

* `std::vector<double>` is a `List α`; the element operations `0.0`, `+` and `*` of the
  source are the parameters `zero`, `add` and `mul`, so that the same definitions can be read
  over exact arithmetic (a commutative semiring) or over operations with no laws at all.
* C++ `int` values are `Int`.  Signed overflow is undefined behaviour in C++ and is not
  given a meaning here: the development is about executions in which the `int` expressions
  `n * n`, `i * n + k`, ... are representable.
* `v[idx]` outside `0 ≤ idx < v.size()` is `Fault.outOfBounds`; `n % 0` is
  `Fault.divisionByZero`; an exception is the matching `Fault`.
* Loops whose step is an input (`jj += blockSize`) run on fuel; `Fault.outOfFuel` only
  means that the fuel given to the model was used up.
-/

namespace CacheBenchmark

/-- Ways in which a run ends without returning a value. -/
inductive Fault where
  /-- `std::runtime_error("missing matrix size")` -/
  | missingMatrixSize
  /-- `std::runtime_error("missing matrix values")` -/
  | missingMatrixValues
  /-- `std::runtime_error("invalid block size")` -/
  | invalidBlockSize
  /-- `std::invalid_argument` / `std::out_of_range` of `std::stoi`, `std::stod` -/
  | invalidArgument
  /-- `operator[]` of a vector outside its bounds -/
  | outOfBounds
  /-- the integer remainder `n % 0` -/
  | divisionByZero
  /-- the model ran out of fuel: the loop had not finished -/
  | outOfFuel
  deriving DecidableEq, Repr

deriving instance DecidableEq for Except

section Engine

variable {α : Type}

/-- The read `v[idx]` of a vector at an `int` index. -/
def readAt (v : List α) (idx : Int) : Except Fault α :=
  if idx < 0 then .error .outOfBounds
  else
    match v[idx.toNat]? with
    | some x => .ok x
    | none => .error .outOfBounds

/-- The write `v[idx] = x` of a vector at an `int` index. -/
def writeAt (v : List α) (idx : Int) (x : α) : Except Fault (List α) :=
  if idx < 0 then .error .outOfBounds
  else if idx.toNat < v.length then .ok (v.set idx.toNat x)
  else .error .outOfBounds

/-- The loop `for (int i = i0; i < hi; i += step) body`, the state threaded through `body`;
at most `fuel` iterations are run. -/
def forLoop {σ : Type} (hi step : Int) (body : Int → σ → Except Fault σ) :
    Nat → Int → σ → Except Fault σ
  | 0, i, s => if i < hi then .error .outOfFuel else .ok s
  | fuel + 1, i, s =>
    if i < hi then
      match body i s with
      | .ok s1 => forLoop hi step body fuel (i + step) s1
      | .error e => .error e
    else .ok s

/-- The loop `for (int i = lo; i < hi; ++i) body`: it makes `hi - lo` iterations (none when
`hi ≤ lo`), so that many units of fuel always suffice. -/
def forUnit {σ : Type} (lo hi : Int) (body : Int → σ → Except Fault σ) (s : σ) :
    Except Fault σ :=
  forLoop hi 1 body (hi - lo).toNat lo s

/-- The statement `sum += A[i * n + k] * B[k * n + j]`, the body of the innermost loop of both
multipliers. -/
def accumulateStep (add mul : α → α → α) (A B : List α) (n i j k : Int) (sum : α) :
    Except Fault α :=
  match readAt A (i * n + k) with
  | .error e => .error e
  | .ok a =>
    match readAt B (k * n + j) with
    | .error e => .error e
    | .ok b => .ok (add sum (mul a b))

/-- `multiplyMatrices` of `src/mmult.cpp`. -/
def multiplyMatrices (zero : α) (add mul : α → α → α) (A B : List α) (n : Int) :
    Except Fault (List α) :=
  let C := List.replicate (n * n).toNat zero
  forUnit 0 n (fun i C =>
    forUnit 0 n (fun j C =>
      match forUnit 0 n (fun k sum => accumulateStep add mul A B n i j k sum) zero with
      | .ok sum => writeAt C (i * n + j) sum
      | .error e => .error e) C) C

/-- The pass of `multiplyMatricesBlocked` over one tile pair `(jj, kk)`: its loops over `i`,
`j` and `k` (the body of the `kk` loop). -/
def blockedTile (add mul : α → α → α) (A B : List α) (n blockSize jj kk : Int)
    (C : List α) : Except Fault (List α) :=
  forUnit 0 n (fun i C =>
    forUnit jj (jj + blockSize) (fun j C =>
      match readAt C (i * n + j) with
      | .error e => .error e
      | .ok sum0 =>
        match forUnit kk (kk + blockSize)
            (fun k sum => accumulateStep add mul A B n i j k sum) sum0 with
        | .ok sum => writeAt C (i * n + j) sum
        | .error e => .error e) C) C

/-- `multiplyMatricesBlocked` of `src/mmult.cpp`; `fuel` bounds the number of iterations of
each of the two tile loops. -/
def multiplyMatricesBlocked (zero : α) (add mul : α → α → α) (fuel : Nat) (A B : List α)
    (n blockSize : Int) : Except Fault (List α) :=
  if blockSize = 0 then .error .divisionByZero
  else if Int.tmod n blockSize ≠ 0 then .error .invalidBlockSize
  else
    let C := List.replicate (n * n).toNat zero
    forLoop n blockSize (fun jj C =>
      forLoop n blockSize (fun kk C => blockedTile add mul A B n blockSize jj kk C) fuel 0 C)
      fuel 0 C

/-- The product term `A[i*n + k] * B[k*n + j]` of cell `(i, j)` at `k`. -/
def term (zero : α) (mul : α → α → α) (A B : List α) (n i j k : Nat) : α :=
  mul (A.getD (i * n + k) zero) (B.getD (k * n + j) zero)

/-- The accumulation `sum += A[i*n + k] * B[k*n + j]` run for `k = lo, lo + 1, ..., lo + c - 1`
in ascending order, starting from `s`. -/
def dotAcc (zero : α) (add mul : α → α → α) (A B : List α) (n i j lo c : Nat) (s : α) : α :=
  (List.range' lo c).foldl (fun s k => add s (term zero mul A B n i j k)) s

/-- The vector `C` has `N` cells and cell `idx` holds `g idx`. -/
def CellsAre (N : Nat) (C : List α) (g : Nat → α) : Prop :=
  C.length = N ∧ ∀ idx, idx < N → C[idx]? = some (g idx)

instance [DecidableEq α] (N : Nat) (C : List α) (g : Nat → α) : Decidable (CellsAre N C g) := by
  unfold CellsAre
  infer_instance

/-- The `n × n` identity matrix in row-major order: cell `i * n + j` is `1` when `i = j` and
`0` otherwise. -/
def identityMatrix [Zero α] [One α] (n : Nat) : List α :=
  (List.range (n * n)).map (fun idx => if idx / n = idx % n then 1 else 0)

/-- The `n × n` zero matrix in row-major order. -/
def zeroMatrix [Zero α] (n : Nat) : List α :=
  List.replicate (n * n) 0

end Engine


section Harness

variable {α : Type}

/-- One call of a multiplier made by `main`: the index `i` of the first matrix of the pair
it was called on, and whether it was `multiplyMatricesBlocked`. -/
structure Call where
  pair : Nat
  blocked : Bool
  deriving DecidableEq, Repr

/-- The timing loop `for (int r = 0; r < runs; ++r)` of `main` on the pair at index `i`:
`r` runs are left, `log` holds the calls made so far.  It gives the calls made and the
exception that left `main`, if one was thrown. -/
def timedRuns (zero : α) (add mul : α → α → α) (fuel : Nat) (A B : List α)
    (n blockSize : Int) (i : Nat) : Nat → List Call → List Call × Option Fault
  | 0, log => (log, none)
  | r + 1, log =>
    if blockSize ≠ 0 then
      match multiplyMatricesBlocked zero add mul fuel A B n blockSize with
      | .ok _ => timedRuns zero add mul fuel A B n blockSize i r (log ++ [⟨i, true⟩])
      | .error e => (log ++ [⟨i, true⟩], some e)
    else
      match multiplyMatrices zero add mul A B n with
      | .ok _ => timedRuns zero add mul fuel A B n blockSize i r (log ++ [⟨i, false⟩])
      | .error e => (log ++ [⟨i, false⟩], some e)

/-- The loop `for (size_t i = 0; i < matrices.size(); i += 2)` of `main` over the parsed
lines (`sizes[i]` and `matrices[i]` are the two components of `parsed[i]`); `count` bounds
the iterations left (`i` advances by two, so `matrices.size()` of them always suffice).  A
pair whose sizes differ is skipped by `continue`; `sizes[i + 1]` past the end of an odd list
is an out-of-bounds read. -/
def pairLoop (zero : α) (add mul : α → α → α) (fuel : Nat) (parsed : List (Int × List α))
    (blockSize : Int) : Nat → Nat → List Call → List Call × Option Fault
  | 0, _, log => (log, none)
  | count + 1, i, log =>
    if i < parsed.length then
      match parsed[i]?, parsed[i + 1]? with
      | some (n, A), some (n1, B) =>
        if n ≠ n1 then pairLoop zero add mul fuel parsed blockSize count (i + 2) log
        else
          match timedRuns zero add mul fuel A B n blockSize i 10 log with
          | (log1, none) => pairLoop zero add mul fuel parsed blockSize count (i + 2) log1
          | (log1, some e) => (log1, some e)
      | _, _ => (log, some .outOfBounds)
    else (log, none)

/-- The part of `main` after the file has been read: the two checks on the first pair and
the loop over the pairs.  `blockSize` is `0` when no block size was given on the command
line.  It gives the calls of the multipliers that were made, and the exit status or the
exception that left `main`. -/
def harness (zero : α) (add mul : α → α → α) (fuel : Nat) (parsed : List (Int × List α))
    (blockSize : Int) : List Call × Except Fault Int :=
  match parsed with
  | (n0, _) :: (n1, _) :: _ =>
    if n0 ≠ n1 then ([], .ok 1)
    else
      match pairLoop zero add mul fuel parsed blockSize parsed.length 0 [] with
      | (log, none) => (log, .ok 0)
      | (log, some e) => (log, .error e)
  | _ => ([], .ok 1)

end Harness

section Reader

variable {α : Type}

/-- The call `std::getline(ss, token, ',')` on the unread rest of the stream: it fails when
nothing is left, and otherwise gives the characters before the first comma and leaves what
follows that comma. -/
def getline (ss : List Char) : Option (List Char × List Char) :=
  match ss with
  | [] => none
  | c :: cs =>
    some ((c :: cs).takeWhile (fun x => x != ','), ((c :: cs).dropWhile (fun x => x != ',')).drop 1)

/-- `readMatrixLine` of `src/mmult.cpp`; the library functions `std::stoi` and `std::stod`
are parameters, and the result pairs the output parameter `size` with the returned vector. -/
def readMatrixLine (stoi : List Char → Except Fault Int) (stod : List Char → Except Fault α)
    (zero : α) (line : List Char) : Except Fault (Int × List α) :=
  match getline line with
  | none => .error .missingMatrixSize
  | some (token, ss) =>
    match stoi token with
    | .error e => .error e
    | .ok size =>
      let matrix := List.replicate (size * size).toNat zero
      match forUnit 0 (size * size) (fun i (st : List Char × List α) =>
          match getline st.1 with
          | none => .error .missingMatrixValues
          | some (token, ss) =>
            match stod token with
            | .error e => .error e
            | .ok v =>
              match writeAt st.2 i v with
              | .error e => .error e
              | .ok matrix => .ok (ss, matrix)) (ss, matrix) with
      | .error e => .error e
      | .ok st => .ok (size, st.2)

/-- The text of a line made of the given fields, separated by commas. -/
def joinFields : List (List Char) → List Char
  | [] => []
  | [f] => f
  | f :: g :: fs => f ++ ',' :: joinFields (g :: fs)

/-- The value of a plain decimal token (digits, with an optional leading minus sign), as
`std::stoi` reads it, and `std::stod` for integral values; any other token is refused. -/
def decimal (token : List Char) : Except Fault Int :=
  let value := fun (ds : List Char) => ds.foldl (fun v c => 10 * v + (c.toNat - 48)) 0
  match token with
  | '-' :: ds =>
    if ds ≠ [] ∧ ds.all Char.isDigit then .ok (-(value ds : Nat)) else .error .invalidArgument
  | ds =>
    if ds ≠ [] ∧ ds.all Char.isDigit then .ok (value ds : Nat) else .error .invalidArgument

end Reader

section Trace

/-- The vector an access goes to. -/
inductive Operand where
  | A
  | B
  | C
  deriving DecidableEq, Repr

/-- One use of `operator[]` in `multiplyMatricesBlocked`: the vector, the row and column
variables in scope, and the index expression `row * n + col` passed to `operator[]`. -/
structure Access where
  vec : Operand
  row : Int
  col : Int
  index : Int
  deriving DecidableEq, Repr

/-- The accesses made by the pass over one tile pair `(jj, kk)`, in order, appended to `log`:
the loop nest of `blockedTile` with the data left out. -/
def tileAccesses (n blockSize jj kk : Int) (log : List Access) : Except Fault (List Access) :=
  forUnit 0 n (fun i log =>
    forUnit jj (jj + blockSize) (fun j log =>
      match forUnit kk (kk + blockSize)
          (fun k log => .ok (log ++ [⟨.A, i, k, i * n + k⟩, ⟨.B, k, j, k * n + j⟩]))
          (log ++ [⟨.C, i, j, i * n + j⟩]) with
      | .ok log => .ok (log ++ [⟨.C, i, j, i * n + j⟩])
      | .error e => .error e) log) log

/-- The accesses made by `multiplyMatricesBlocked`, in order: its loop nest with the data
left out. -/
def blockedAccesses (fuel : Nat) (n blockSize : Int) : Except Fault (List Access) :=
  if blockSize = 0 then .error .divisionByZero
  else if Int.tmod n blockSize ≠ 0 then .error .invalidBlockSize
  else
    forLoop n blockSize (fun jj log =>
      forLoop n blockSize (fun kk log => tileAccesses n blockSize jj kk log) fuel 0 log)
      fuel 0 []

/-- An access stays inside an `n × n` row-major matrix: row and column are in `[0, n)` and
the index is `row * n + col`, in `[0, n * n)`. -/
def Access.InRange (n : Int) (a : Access) : Prop :=
  0 ≤ a.row ∧ a.row < n ∧ 0 ≤ a.col ∧ a.col < n ∧
    a.index = a.row * n + a.col ∧ 0 ≤ a.index ∧ a.index < n * n

instance (n : Int) (a : Access) : Decidable (a.InRange n) := by
  unfold Access.InRange
  infer_instance

end Trace

/-! ## Loops -/

theorem forLoop_inv {σ : Type} (hi step : Int) (body : Int → σ → Except Fault σ) :
    ∀ (m : Nat) (Inv : Nat → σ → Prop) (fuel : Nat) (lo : Int) (s : σ), m ≤ fuel →
      (∀ t : Nat, t < m → lo + t * step < hi) → hi ≤ lo + m * step → Inv 0 s →
      (∀ (t : Nat) (s : σ), t < m → Inv t s →
        ∃ s1, body (lo + t * step) s = .ok s1 ∧ Inv (t + 1) s1) →
      ∃ s1, forLoop hi step body fuel lo s = .ok s1 ∧ Inv m s1 := by
  intro m
  induction m with
  | zero =>
    intro Inv fuel lo s _ _ hhi h0 _
    have hlo : ¬ lo < hi := by simpa using hhi
    refine ⟨s, ?_, h0⟩
    cases fuel <;> simp [forLoop, hlo]
  | succ m ih =>
    intro Inv fuel lo s hfuel hlt hhi h0 hstep
    obtain ⟨fuel, rfl⟩ : ∃ f, fuel = f + 1 := ⟨fuel - 1, by omega⟩
    have hlo : lo < hi := by simpa using hlt 0 (by omega)
    obtain ⟨s1, hb, h1⟩ := hstep 0 s (by omega) h0
    have hb1 : body lo s = .ok s1 := by simpa using hb
    obtain ⟨s2, hl, h2⟩ := ih (fun t => Inv (t + 1)) fuel (lo + step) s1 (by omega)
      (fun t ht => by
        have := hlt (t + 1) (by omega)
        push_cast at this
        linarith)
      (by push_cast at hhi; linarith) h1
      (fun t s ht hinv => by
        obtain ⟨s3, hb3, h3⟩ := hstep (t + 1) s (by omega) hinv
        refine ⟨s3, ?_, h3⟩
        rw [← hb3]
        congr 1
        push_cast
        ring)
    refine ⟨s2, ?_, h2⟩
    simp only [forLoop, hlo, if_true, hb1]
    exact hl

theorem forUnit_inv {σ : Type} (lo hi : Int) (body : Int → σ → Except Fault σ) (m : Nat)
    (Inv : Nat → σ → Prop) (s : σ) (hm : hi = lo + m) (h0 : Inv 0 s)
    (hstep : ∀ (t : Nat) (s : σ), t < m → Inv t s →
      ∃ s1, body (lo + t) s = .ok s1 ∧ Inv (t + 1) s1) :
    ∃ s1, forUnit lo hi body s = .ok s1 ∧ Inv m s1 := by
  have hfuel : (hi - lo).toNat = m := by rw [hm]; simp
  unfold forUnit
  rw [hfuel]
  refine forLoop_inv hi 1 body m Inv m lo s le_rfl ?_ ?_ h0 ?_
  · intro t ht
    rw [hm]
    have : (t : Int) < m := by exact_mod_cast ht
    linarith
  · rw [hm]; linarith
  · intro t s ht hinv
    simpa using hstep t s ht hinv

/-- The fuel that `forUnit` gives itself is never the reason for a failure: when the body
does not run out of fuel, neither does the loop. -/
theorem forUnit_fuel {σ : Type} (lo hi : Int) (body : Int → σ → Except Fault σ) (s : σ)
    (hbody : ∀ i s, body i s ≠ .error .outOfFuel) :
    forUnit lo hi body s ≠ .error .outOfFuel := by
  have key : ∀ (fuel : Nat) (i : Int) (s : σ), hi - i ≤ fuel →
      forLoop hi 1 body fuel i s ≠ .error .outOfFuel := by
    intro fuel
    induction fuel with
    | zero =>
      intro i s h
      have hlt : ¬ i < hi := by omega
      simp [forLoop, hlt]
    | succ fuel ih =>
      intro i s h
      by_cases hlt : i < hi
      · simp only [forLoop, hlt, if_true]
        cases hb : body i s with
        | ok s1 => exact ih (i + 1) s1 (by omega)
        | error e =>
          intro h1
          exact hbody i s (by rw [hb, Except.error.inj h1])
      · simp [forLoop, hlt]
  exact key _ lo s (by omega)

/-! ## Vector accesses and flat indices -/

section Access

variable {α : Type}

theorem readAt_nat (zero : α) (v : List α) (m : Nat) (h : m < v.length) :
    readAt v (m : Int) = .ok (v.getD m zero) := by
  have h0 : ¬ ((m : Int) < 0) := by omega
  simp [readAt, h0, List.getD, List.getElem?_eq_getElem h]

theorem writeAt_nat (v : List α) (m : Nat) (x : α) (h : m < v.length) :
    writeAt v (m : Int) x = .ok (v.set m x) := by
  have h0 : ¬ ((m : Int) < 0) := by omega
  simp [writeAt, h0, h]

theorem flat_lt {n i j : Nat} (hi : i < n) (hj : j < n) : i * n + j < n * n := by
  have h : (i + 1) * n ≤ n * n := Nat.mul_le_mul_right n hi
  have h2 : (i + 1) * n = i * n + n := by ring
  omega

theorem flat_div {n j : Nat} (i : Nat) (hj : j < n) : (i * n + j) / n = i := by
  have hn : 0 < n := by omega
  rw [Nat.add_comm, Nat.add_mul_div_right _ _ hn, Nat.div_eq_of_lt hj, Nat.zero_add]

theorem flat_mod {n j : Nat} (i : Nat) (hj : j < n) : (i * n + j) % n = j := by
  rw [Nat.add_comm, Nat.add_mul_mod_self_right, Nat.mod_eq_of_lt hj]

theorem flat_ne {n idx i j : Nat} (h : idx ≠ i * n + j) : ¬ (idx / n = i ∧ idx % n = j) := by
  rintro ⟨h1, h2⟩
  apply h
  rw [← h1, ← h2]
  exact (Nat.div_add_mod' idx n).symm

theorem div_lt_of_flat {n idx : Nat} (h : idx < n * n) : idx / n < n :=
  Nat.div_lt_of_lt_mul h

theorem mod_lt_of_flat {n idx : Nat} (h : idx < n * n) : idx % n < n := by
  have hn : 0 < n := by
    rcases Nat.eq_zero_or_pos n with h0 | h0
    · subst h0; simp at h
    · exact h0
  exact Nat.mod_lt _ hn

theorem cellsAre_replicate (N : Nat) (zero : α) :
    CellsAre N (List.replicate N zero) (fun _ => zero) := by
  refine ⟨by simp, ?_⟩
  intro idx h
  simp [List.getElem?_replicate, h]

theorem cellsAre_congr {N : Nat} {C : List α} {g g1 : Nat → α} (h : CellsAre N C g)
    (hg : ∀ idx, idx < N → g idx = g1 idx) : CellsAre N C g1 :=
  ⟨h.1, fun idx hidx => by rw [h.2 idx hidx, hg idx hidx]⟩

theorem cellsAre_getD {N : Nat} {C : List α} {g : Nat → α} (h : CellsAre N C g) (zero : α)
    {idx : Nat} (hidx : idx < N) : C.getD idx zero = g idx := by
  simp [List.getD, h.2 idx hidx]

theorem cellsAre_set {N : Nat} {C : List α} {g : Nat → α} (h : CellsAre N C g) {a : Nat}
    (ha : a < N) (v : α) : CellsAre N (C.set a v) (fun idx => if idx = a then v else g idx) := by
  refine ⟨by simp [h.1], ?_⟩
  intro idx hidx
  rw [List.getElem?_set]
  by_cases e : a = idx
  · subst e
    simp [h.1, ha]
  · have e1 : ¬ idx = a := fun x => e x.symm
    simp [e, e1, h.2 idx hidx]

theorem cellsAre_unique {N : Nat} {C D : List α} {g : Nat → α} (hC : CellsAre N C g)
    (hD : CellsAre N D g) : C = D := by
  apply List.ext_getElem?
  intro idx
  by_cases h : idx < N
  · rw [hC.2 idx h, hD.2 idx h]
  · have h1 : C.length ≤ idx := by rw [hC.1]; omega
    have h2 : D.length ≤ idx := by rw [hD.1]; omega
    rw [List.getElem?_eq_none h1, List.getElem?_eq_none h2]

theorem dotAcc_zero (zero : α) (add mul : α → α → α) (A B : List α) (n i j lo : Nat) (s : α) :
    dotAcc zero add mul A B n i j lo 0 s = s := by
  simp [dotAcc]

theorem dotAcc_succ (zero : α) (add mul : α → α → α) (A B : List α) (n i j lo c : Nat)
    (s : α) :
    dotAcc zero add mul A B n i j lo (c + 1) s
      = add (dotAcc zero add mul A B n i j lo c s) (term zero mul A B n i j (lo + c)) := by
  simp [dotAcc, List.range'_concat, List.foldl_append]

theorem dotAcc_append (zero : α) (add mul : α → α → α) (A B : List α) (n i j lo c d : Nat)
    (s : α) :
    dotAcc zero add mul A B n i j (lo + c) d (dotAcc zero add mul A B n i j lo c s)
      = dotAcc zero add mul A B n i j lo (c + d) s := by
  induction d with
  | zero => simp [dotAcc_zero]
  | succ d ih =>
    rw [← Nat.add_assoc, dotAcc_succ, dotAcc_succ, ih, Nat.add_assoc]

/-- The innermost loop: `c` accumulation steps from `k = kk`. -/
theorem accumulate_ok (zero : α) (add mul : α → α → α) (A B : List α) {n i j : Nat}
    (kk c : Nat) (hi : i < n) (hj : j < n) (hk : kk + c ≤ n) (hA : n * n ≤ A.length)
    (hB : n * n ≤ B.length) (s0 : α) :
    forUnit (kk : Int) ((kk : Int) + (c : Int))
        (fun k sum => accumulateStep add mul A B (n : Int) (i : Int) (j : Int) k sum) s0
      = .ok (dotAcc zero add mul A B n i j kk c s0) := by
  obtain ⟨s1, h1, h2⟩ := forUnit_inv (kk : Int) ((kk : Int) + (c : Int))
    (fun k sum => accumulateStep add mul A B (n : Int) (i : Int) (j : Int) k sum) c
    (fun t s => s = dotAcc zero add mul A B n i j kk t s0) s0 rfl
    (by simp [dotAcc_zero])
    (by
      intro t s ht hs
      have hkt : kk + t < n := by omega
      have e1 : (i : Int) * (n : Int) + ((kk : Int) + (t : Int)) = ((i * n + (kk + t) : Nat) : Int) := by
        push_cast; ring
      have e2 : ((kk : Int) + (t : Int)) * (n : Int) + (j : Int) = (((kk + t) * n + j : Nat) : Int) := by
        push_cast; ring
      have b1 : i * n + (kk + t) < A.length := lt_of_lt_of_le (flat_lt hi hkt) hA
      have b2 : (kk + t) * n + j < B.length := lt_of_lt_of_le (flat_lt hkt hj) hB
      refine ⟨_, ?_, rfl⟩
      simp only [accumulateStep, e1, e2, readAt_nat zero A _ b1, readAt_nat zero B _ b2]
      rw [dotAcc_succ, hs]
      rfl)
  rw [h1, h2]

theorem accumulate_ok0 (zero : α) (add mul : α → α → α) (A B : List α) {n i j : Nat}
    (hi : i < n) (hj : j < n) (hA : n * n ≤ A.length) (hB : n * n ≤ B.length) (s0 : α) :
    forUnit 0 (n : Int)
        (fun k sum => accumulateStep add mul A B (n : Int) (i : Int) (j : Int) k sum) s0
      = .ok (dotAcc zero add mul A B n i j 0 n s0) := by
  simpa using accumulate_ok zero add mul A B 0 n hi hj (by omega) hA hB s0

theorem ok_weaken {σ : Type} {x : Except Fault σ} {P Q : σ → Prop}
    (h : ∃ s, x = .ok s ∧ P s) (hPQ : ∀ s, P s → Q s) : ∃ s, x = .ok s ∧ Q s := by
  obtain ⟨s, h1, h2⟩ := h
  exact ⟨s, h1, hPQ s h2⟩

theorem toNat_sq (n : Nat) : ((n : Int) * (n : Int)).toNat = n * n := by
  rw [← Nat.cast_mul]
  exact Int.toNat_natCast _

/-! ## The naive multiplier -/

/-- Every cell `idx = i * n + j` of the result of `multiplyMatrices` holds the accumulation
over `k = 0, ..., n - 1`, in this order, started from `zero`. -/
theorem multiplyMatrices_cells (zero : α) (add mul : α → α → α) (A B : List α) (n : Nat)
    (hA : n * n ≤ A.length) (hB : n * n ≤ B.length) :
    ∃ C, multiplyMatrices zero add mul A B (n : Int) = .ok C ∧
      CellsAre (n * n) C
        (fun idx => dotAcc zero add mul A B n (idx / n) (idx % n) 0 n zero) := by
  unfold multiplyMatrices
  simp only [toNat_sq]
  refine ok_weaken (forUnit_inv _ _ _ n
    (fun t C => CellsAre (n * n) C (fun idx =>
      if idx / n < t then dotAcc zero add mul A B n (idx / n) (idx % n) 0 n zero else zero))
    _ (by simp) ?_ ?_) ?_
  · exact cellsAre_congr (cellsAre_replicate _ zero) (fun idx _ => by simp)
  · intro t C ht hC
    simp only [zero_add]
    refine ok_weaken (forUnit_inv _ _ _ n
      (fun u C1 => CellsAre (n * n) C1 (fun idx =>
        if idx / n < t ∨ (idx / n = t ∧ idx % n < u)
        then dotAcc zero add mul A B n (idx / n) (idx % n) 0 n zero else zero))
      _ (by simp) ?_ ?_) ?_
    · exact cellsAre_congr hC (fun idx _ => by simp)
    · intro u C1 hu hC1
      simp only [zero_add]
      rw [accumulate_ok0 zero add mul A B ht hu hA hB]
      have e : (t : Int) * (n : Int) + (u : Int) = ((t * n + u : Nat) : Int) := by
        push_cast; ring
      have hlt : t * n + u < n * n := flat_lt ht hu
      simp only [e]
      rw [writeAt_nat _ _ _ (by rw [hC1.1]; exact hlt)]
      refine ⟨_, rfl, cellsAre_congr (cellsAre_set hC1 hlt _) ?_⟩
      intro idx _
      by_cases h : idx = t * n + u
      · subst h
        simp [flat_div t hu, flat_mod t hu]
      · have hne := flat_ne h
        simp only [h, if_false]
        refine if_congr ?_ rfl rfl
        generalize idx / n = a at *
        generalize idx % n = b at *
        omega
    · intro C1 hC1
      refine cellsAre_congr hC1 (fun idx hidx => ?_)
      have hm := mod_lt_of_flat hidx
      refine if_congr ?_ rfl rfl
      generalize idx / n = a at *
      generalize idx % n = b at *
      omega
  · intro C hC
    exact cellsAre_congr hC (fun idx hidx => by simp [div_lt_of_flat hidx])

/-! ## The blocked multiplier -/

/-- One tile pass adds, to every cell of the column tile `[jj, jj + bs)`, the terms
`k = K, ..., K + bs - 1` in ascending order, and leaves the other cells alone. -/
theorem blockedTile_cells (zero : α) (add mul : α → α → α) (A B : List α) (n bs jj K : Nat)
    (hjj : jj + bs ≤ n) (hK : K + bs ≤ n) (hA : n * n ≤ A.length) (hB : n * n ≤ B.length)
    (C : List α) (g : Nat → α) (hC : CellsAre (n * n) C g) :
    ∃ C1, blockedTile add mul A B (n : Int) (bs : Int) (jj : Int) (K : Int) C = .ok C1 ∧
      CellsAre (n * n) C1 (fun idx =>
        if jj ≤ idx % n ∧ idx % n < jj + bs
        then dotAcc zero add mul A B n (idx / n) (idx % n) K bs (g idx) else g idx) := by
  unfold blockedTile
  refine ok_weaken (forUnit_inv _ _ _ n
    (fun r C1 => CellsAre (n * n) C1 (fun idx =>
      if idx / n < r ∧ (jj ≤ idx % n ∧ idx % n < jj + bs)
      then dotAcc zero add mul A B n (idx / n) (idx % n) K bs (g idx) else g idx))
    _ (by simp) ?_ ?_) ?_
  · exact cellsAre_congr hC (fun idx _ => by simp)
  · intro r C1 hr hC1
    simp only [zero_add]
    refine ok_weaken (forUnit_inv _ _ _ bs
      (fun c C2 => CellsAre (n * n) C2 (fun idx =>
        if (idx / n < r ∨ (idx / n = r ∧ idx % n < jj + c)) ∧ (jj ≤ idx % n ∧ idx % n < jj + bs)
        then dotAcc zero add mul A B n (idx / n) (idx % n) K bs (g idx) else g idx))
      _ rfl ?_ ?_) ?_
    · refine cellsAre_congr hC1 (fun idx _ => ?_)
      refine if_congr ?_ rfl rfl
      generalize idx / n = a at *
      generalize idx % n = b at *
      omega
    · intro c C2 hc hC2
      have hj : jj + c < n := by omega
      have hlt : r * n + (jj + c) < n * n := flat_lt hr hj
      have e : (r : Int) * (n : Int) + ((jj : Int) + (c : Int))
          = ((r * n + (jj + c) : Nat) : Int) := by
        push_cast; ring
      have ej : (jj : Int) + (c : Int) = ((jj + c : Nat) : Int) := by push_cast; ring
      have hold : C2.getD (r * n + (jj + c)) zero = g (r * n + (jj + c)) := by
        rw [cellsAre_getD hC2 zero hlt]
        simp [flat_div r hj, flat_mod r hj]
      simp only [e]
      rw [readAt_nat zero _ _ (by rw [hC2.1]; exact hlt)]
      simp only [ej]
      rw [accumulate_ok zero add mul A B K bs hr hj hK hA hB]
      simp only []
      rw [writeAt_nat _ _ _ (by rw [hC2.1]; exact hlt), hold]
      refine ⟨_, rfl, cellsAre_congr (cellsAre_set hC2 hlt _) ?_⟩
      intro idx _
      by_cases h : idx = r * n + (jj + c)
      · subst h
        have h1 : jj + c < jj + (c + 1) := by omega
        have h2 : jj ≤ jj + c := by omega
        have h3 : jj + c < jj + bs := by omega
        simp [flat_div r hj, flat_mod r hj, h1, h3]
      · have hne := flat_ne h
        simp only [h, if_false]
        refine if_congr ?_ rfl rfl
        generalize idx / n = a at *
        generalize idx % n = b at *
        omega
    · intro C2 hC2
      refine cellsAre_congr hC2 (fun idx _ => ?_)
      refine if_congr ?_ rfl rfl
      generalize idx / n = a at *
      generalize idx % n = b at *
      omega
  · intro C1 hC1
    refine cellsAre_congr hC1 (fun idx hidx => ?_)
    have hd := div_lt_of_flat hidx
    refine if_congr ?_ rfl rfl
    generalize idx / n = a at *
    generalize idx % n = b at *
    omega

/-- The `kk` loop for one column tile: every cell of the tile receives all `n` terms, in
ascending order of `k`, on top of the value it held; the other cells are left alone. -/
theorem tileLoop_cells (zero : α) (add mul : α → α → α) (A B : List α) (n bs m jj : Nat)
    (hbs : 0 < bs) (hn : n = m * bs) (fuel : Nat) (hfuel : m ≤ fuel) (hjj : jj + bs ≤ n)
    (hA : n * n ≤ A.length) (hB : n * n ≤ B.length)
    (C : List α) (g : Nat → α) (hC : CellsAre (n * n) C g) :
    ∃ C1, forLoop (n : Int) (bs : Int)
        (fun kk C => blockedTile add mul A B (n : Int) (bs : Int) (jj : Int) kk C) fuel 0 C
          = .ok C1 ∧
      CellsAre (n * n) C1 (fun idx =>
        if jj ≤ idx % n ∧ idx % n < jj + bs
        then dotAcc zero add mul A B n (idx / n) (idx % n) 0 n (g idx) else g idx) := by
  refine ok_weaken (forLoop_inv _ _ _ m
    (fun u C1 => CellsAre (n * n) C1 (fun idx =>
      if jj ≤ idx % n ∧ idx % n < jj + bs
      then dotAcc zero add mul A B n (idx / n) (idx % n) 0 (u * bs) (g idx) else g idx))
    fuel 0 C hfuel ?_ ?_ ?_ ?_) ?_
  · intro t ht
    have h : t * bs < m * bs := Nat.mul_lt_mul_of_pos_right ht hbs
    rw [hn]
    have h2 : ((t * bs : Nat) : Int) < ((m * bs : Nat) : Int) := by exact_mod_cast h
    simpa using h2
  · rw [hn]
    simp
  · exact cellsAre_congr hC (fun idx _ => by simp [dotAcc_zero])
  · intro u C1 hu hC1
    have e : (0 : Int) + (u : Int) * (bs : Int) = ((u * bs : Nat) : Int) := by
      push_cast; ring
    have hK : u * bs + bs ≤ n := by
      have h : (u + 1) * bs ≤ m * bs := Nat.mul_le_mul_right bs hu
      have h2 : (u + 1) * bs = u * bs + bs := by ring
      omega
    simp only [e]
    refine ok_weaken (blockedTile_cells zero add mul A B n bs jj (u * bs) hjj hK hA hB C1 _ hC1)
      ?_
    intro C2 hC2
    refine cellsAre_congr hC2 (fun idx _ => ?_)
    by_cases h : jj ≤ idx % n ∧ idx % n < jj + bs
    · simp only [h, and_self, if_true]
      have h2 : (u + 1) * bs = u * bs + bs := by ring
      have h3 := dotAcc_append zero add mul A B n (idx / n) (idx % n) 0 (u * bs) bs (g idx)
      rw [Nat.zero_add] at h3
      rw [h2, h3]
    · simp only [h, if_false]
  · intro C1 hC1
    refine cellsAre_congr hC1 (fun idx _ => ?_)
    rw [← hn]

/-- Every cell `idx = i * n + j` of the result of `multiplyMatricesBlocked` holds the
accumulation over `k = 0, ..., n - 1`, in this order, started from `zero`: the additions made
for a cell and their order are those of `multiplyMatrices`. -/
theorem multiplyMatricesBlocked_cells (zero : α) (add mul : α → α → α) (A B : List α)
    (n bs m : Nat) (hbs : 0 < bs) (hn : n = m * bs) (fuel : Nat) (hfuel : m ≤ fuel)
    (hA : n * n ≤ A.length) (hB : n * n ≤ B.length) :
    ∃ C, multiplyMatricesBlocked zero add mul fuel A B (n : Int) (bs : Int) = .ok C ∧
      CellsAre (n * n) C
        (fun idx => dotAcc zero add mul A B n (idx / n) (idx % n) 0 n zero) := by
  unfold multiplyMatricesBlocked
  have h0 : ¬ ((bs : Int) = 0) := by
    have : bs ≠ 0 := by omega
    exact_mod_cast this
  have h1 : Int.tmod (n : Int) (bs : Int) = 0 := by
    rw [hn, ← Int.ofNat_tmod]
    simp
  simp only [h0, h1, if_false, ne_eq, not_true_eq_false, toNat_sq]
  refine ok_weaken (forLoop_inv _ _ _ m
    (fun t C => CellsAre (n * n) C (fun idx =>
      if idx % n < t * bs
      then dotAcc zero add mul A B n (idx / n) (idx % n) 0 n zero else zero))
    fuel 0 _ hfuel ?_ ?_ ?_ ?_) ?_
  · intro t ht
    have h : t * bs < m * bs := Nat.mul_lt_mul_of_pos_right ht hbs
    rw [hn]
    have h2 : ((t * bs : Nat) : Int) < ((m * bs : Nat) : Int) := by exact_mod_cast h
    simpa using h2
  · rw [hn]
    simp
  · exact cellsAre_congr (cellsAre_replicate _ zero) (fun idx _ => by simp)
  · intro t C ht hC
    have e : (0 : Int) + (t : Int) * (bs : Int) = ((t * bs : Nat) : Int) := by
      push_cast; ring
    have hjj : t * bs + bs ≤ n := by
      have h : (t + 1) * bs ≤ m * bs := Nat.mul_le_mul_right bs ht
      have h2 : (t + 1) * bs = t * bs + bs := by ring
      omega
    simp only [e]
    refine ok_weaken
      (tileLoop_cells zero add mul A B n bs m (t * bs) hbs hn fuel hfuel hjj hA hB C _ hC) ?_
    intro C1 hC1
    refine cellsAre_congr hC1 (fun idx _ => ?_)
    have h2 : (t + 1) * bs = t * bs + bs := by ring
    rw [h2]
    generalize t * bs = jj at *
    by_cases ha : idx % n < jj
    · have hb : ¬ (jj ≤ idx % n ∧ idx % n < jj + bs) := by omega
      have hc : idx % n < jj + bs := by omega
      rw [if_neg hb, if_pos ha, if_pos hc]
    · by_cases hc : idx % n < jj + bs
      · have hb : jj ≤ idx % n ∧ idx % n < jj + bs := by omega
        rw [if_pos hb, if_neg ha, if_pos hc]
      · have hb : ¬ (jj ≤ idx % n ∧ idx % n < jj + bs) := by omega
        rw [if_neg hb, if_neg ha, if_neg hc]
  · intro C hC
    refine cellsAre_congr hC (fun idx hidx => ?_)
    have hm := mod_lt_of_flat hidx
    rw [← hn]
    simp [hm]

/-! ## Exact arithmetic -/

theorem cellsAre_self (zero : α) (A : List α) (N : Nat) (h : A.length = N) :
    CellsAre N A (fun idx => A.getD idx zero) := by
  refine ⟨h, fun idx hidx => ?_⟩
  have h1 : idx < A.length := by omega
  simp [List.getD, List.getElem?_eq_getElem h1]

theorem dotAcc_eq_sum [Semiring α] (A B : List α) (n i j c : Nat) :
    dotAcc 0 (fun x y => x + y) (fun x y => x * y) A B n i j 0 c 0
      = ∑ k in Finset.range c, A.getD (i * n + k) 0 * B.getD (k * n + j) 0 := by
  induction c with
  | zero => simp [dotAcc_zero]
  | succ c ih =>
    rw [dotAcc_succ, ih, Finset.sum_range_succ]
    simp [term]

theorem identityMatrix_getD [Semiring α] {n i j : Nat} (hi : i < n) (hj : j < n) :
    (identityMatrix n : List α).getD (i * n + j) 0 = if i = j then 1 else 0 := by
  have h : i * n + j < n * n := flat_lt hi hj
  simp [identityMatrix, List.getD_eq_getElem?_getD, List.getElem?_map,
    List.getElem?_range h, flat_div i hj, flat_mod i hj]

theorem identityMatrix_length [Semiring α] (n : Nat) :
    (identityMatrix n : List α).length = n * n := by
  simp [identityMatrix]

theorem zeroMatrix_getD [Semiring α] (n idx : Nat) :
    (zeroMatrix n : List α).getD idx 0 = 0 := by
  simp only [zeroMatrix, List.getD_eq_getElem?_getD, List.getElem?_replicate]
  split_ifs <;> rfl

/-! ## A non-positive block size -/

theorem forLoop_succ {σ : Type} (hi step : Int) (body : Int → σ → Except Fault σ)
    (fuel : Nat) (i : Int) (s : σ) (h : i < hi) :
    forLoop hi step body (fuel + 1) i s
      = match body i s with
        | .ok s1 => forLoop hi step body fuel (i + step) s1
        | .error e => .error e := by
  simp [forLoop, h]

theorem forLoop_stuck {σ : Type} (hi step : Int) (body : Int → σ → Except Fault σ)
    (hstep : step ≤ 0) (hbody : ∀ i s, ∃ s1, body i s = .ok s1) :
    ∀ (fuel : Nat) (i : Int) (s : σ), i < hi →
      forLoop hi step body fuel i s = .error .outOfFuel := by
  intro fuel
  induction fuel with
  | zero =>
    intro i s h
    simp [forLoop, h]
  | succ fuel ih =>
    intro i s h
    obtain ⟨s1, h1⟩ := hbody i s
    simp only [forLoop, h, if_true, h1]
    exact ih (i + step) s1 (by omega)

theorem blockedTile_negative (add mul : α → α → α) (A B : List α) (n blockSize jj kk : Int)
    (hn : 0 ≤ n) (hbs : blockSize < 0) (C : List α) :
    blockedTile add mul A B n blockSize jj kk C = .ok C := by
  unfold blockedTile
  obtain ⟨C1, h1, h2⟩ := forUnit_inv 0 n
    (fun i C =>
      forUnit jj (jj + blockSize) (fun j C =>
        match readAt C (i * n + j) with
        | .error e => .error e
        | .ok sum0 =>
          match forUnit kk (kk + blockSize)
              (fun k sum => accumulateStep add mul A B n i j k sum) sum0 with
          | .ok sum => writeAt C (i * n + j) sum
          | .error e => .error e) C)
    n.toNat (fun _ s => s = C) C (by rw [Int.toNat_of_nonneg hn]; ring) rfl
    (by
      intro t s _ hs
      refine ⟨s, ?_, hs⟩
      have hb : blockSize.toNat = 0 := Int.toNat_eq_zero.mpr (by omega)
      have h1 : ¬ jj < jj + blockSize := by omega
      simp [forUnit, hb, forLoop, h1])
  rw [h1, h2]

/-- With a negative block size that divides `n ≥ 1` the check passes and the tile loops never
finish: whatever the fuel, it is used up. -/
theorem multiplyMatricesBlocked_negative (zero : α) (add mul : α → α → α) (A B : List α)
    (n blockSize : Int) (hn : 1 ≤ n) (hbs : blockSize < 0) (hdiv : Int.tmod n blockSize = 0)
    (fuel : Nat) :
    multiplyMatricesBlocked zero add mul fuel A B n blockSize = .error .outOfFuel := by
  unfold multiplyMatricesBlocked
  have h0 : ¬ blockSize = 0 := by omega
  simp only [h0, hdiv, if_false, ne_eq, not_true_eq_false]
  have hinner : ∀ (jj : Int) (C : List α),
      forLoop n blockSize (fun kk C => blockedTile add mul A B n blockSize jj kk C) fuel 0 C
        = .error .outOfFuel := by
    intro jj C
    exact forLoop_stuck n blockSize _ (by omega)
      (fun kk C => ⟨C, blockedTile_negative add mul A B n blockSize jj kk (by omega) hbs C⟩)
      fuel 0 C (by omega)
  have hpos : (0 : Int) < n := by omega
  cases fuel with
  | zero => simp [forLoop, hpos]
  | succ fuel => rw [forLoop_succ _ _ _ _ _ _ hpos, hinner]

end Access

/-! ## The harness -/

section HarnessLemmas

variable {α : Type}

theorem timedRuns_calls (zero : α) (add mul : α → α → α) (fuel : Nat) (A B : List α)
    (n blockSize : Int) (i : Nat) :
    ∀ (r : Nat) (log : List Call) (c : Call),
      c ∈ (timedRuns zero add mul fuel A B n blockSize i r log).1 → c ∈ log ∨ c.pair = i := by
  intro r
  induction r with
  | zero =>
    intro log c h
    exact Or.inl (by simpa [timedRuns] using h)
  | succ r ih =>
    intro log c h
    have hmem : ∀ b : Bool, c ∈ log ++ [(⟨i, b⟩ : Call)] → c ∈ log ∨ c.pair = i := by
      intro b hc
      rcases List.mem_append.mp hc with h1 | h1
      · exact Or.inl h1
      · right
        have : c = ⟨i, b⟩ := by simpa using h1
        rw [this]
    unfold timedRuns at h
    split at h
    · split at h
      · rcases ih _ c h with h1 | h1
        · exact hmem true h1
        · exact Or.inr h1
      · exact hmem true h
    · split at h
      · rcases ih _ c h with h1 | h1
        · exact hmem false h1
        · exact Or.inr h1
      · exact hmem false h

theorem pairLoop_calls (zero : α) (add mul : α → α → α) (fuel : Nat)
    (parsed : List (Int × List α)) (blockSize : Int) :
    ∀ (count i : Nat) (log : List Call) (c : Call),
      c ∈ (pairLoop zero add mul fuel parsed blockSize count i log).1 →
      c ∈ log ∨ ∃ n A B, parsed[c.pair]? = some (n, A) ∧ parsed[c.pair + 1]? = some (n, B) := by
  intro count
  induction count with
  | zero =>
    intro i log c h
    exact Or.inl (by simpa [pairLoop] using h)
  | succ count ih =>
    intro i log c h
    unfold pairLoop at h
    split at h
    · split at h
      · rename_i n A n1 B h0 h1
        split at h
        · exact ih _ _ c h
        · rename_i hn
          have hn1 : n = n1 := by
            by_contra hne
            exact hn hne
          subst hn1
          have hruns := timedRuns_calls zero add mul fuel A B n blockSize i 10 log c
          split at h
          · rename_i log1 heq
            rcases ih _ _ c h with h2 | h2
            · rw [heq] at hruns
              rcases hruns h2 with h3 | h3
              · exact Or.inl h3
              · exact Or.inr ⟨n, A, B, by rw [h3]; exact h0, by rw [h3]; exact h1⟩
            · exact Or.inr h2
          · rename_i log1 e heq
            rw [heq] at hruns
            rcases hruns h with h3 | h3
            · exact Or.inl h3
            · exact Or.inr ⟨n, A, B, by rw [h3]; exact h0, by rw [h3]; exact h1⟩
      · exact Or.inl h
    · exact Or.inl h

theorem harness_calls (zero : α) (add mul : α → α → α) (fuel : Nat)
    (parsed : List (Int × List α)) (blockSize : Int) (c : Call)
    (h : c ∈ (harness zero add mul fuel parsed blockSize).1) :
    ∃ n A B, parsed[c.pair]? = some (n, A) ∧ parsed[c.pair + 1]? = some (n, B) := by
  have hl := pairLoop_calls zero add mul fuel parsed blockSize parsed.length 0 [] c
  unfold harness at h
  split at h
  · split at h
    · simp at h
    · split at h
      · rename_i log heq1
        rw [heq1] at hl
        rcases hl h with h1 | h1
        · simp at h1
        · exact h1
      · rename_i log e heq1
        rw [heq1] at hl
        rcases hl h with h1 | h1
        · simp at h1
        · exact h1
  · simp at h

end HarnessLemmas

/-! ## The access trace of the blocked multiplier -/

section TraceLemmas

theorem inRange_mk (v : Operand) {n i j : Nat} (hi : i < n) (hj : j < n) :
    Access.InRange (n : Int) ⟨v, (i : Int), (j : Int), (i : Int) * (n : Int) + (j : Int)⟩ := by
  have h : i * n + j < n * n := flat_lt hi hj
  have h1 : ((i * n + j : Nat) : Int) < ((n * n : Nat) : Int) := by exact_mod_cast h
  have h2 : (0 : Int) ≤ ((i * n + j : Nat) : Int) := Int.ofNat_nonneg _
  push_cast at h1 h2
  dsimp only [Access.InRange]
  exact ⟨by omega, by omega, by omega, by omega, rfl, h2, h1⟩

theorem tileAccesses_inRange (n bs jj K : Nat) (hjj : jj + bs ≤ n) (hK : K + bs ≤ n)
    (log : List Access) (hlog : ∀ a ∈ log, a.InRange (n : Int)) :
    ∃ log1, tileAccesses (n : Int) (bs : Int) (jj : Int) (K : Int) log = .ok log1 ∧
      ∀ a ∈ log1, a.InRange (n : Int) := by
  unfold tileAccesses
  refine forUnit_inv _ _ _ n (fun _ (l : List Access) => ∀ a ∈ l, a.InRange (n : Int)) _ (by simp) hlog ?_
  intro r l hr hl
  simp only [zero_add]
  refine forUnit_inv _ _ _ bs (fun _ (l : List Access) => ∀ a ∈ l, a.InRange (n : Int)) _ rfl hl ?_
  intro c l1 hc hl1
  have hj : jj + c < n := by omega
  have ej : (jj : Int) + (c : Int) = ((jj + c : Nat) : Int) := by push_cast; ring
  simp only [ej]
  obtain ⟨l2, h2, h3⟩ := forUnit_inv (K : Int) ((K : Int) + (bs : Int))
    (fun k (log : List Access) => (Except.ok (log ++
      [(⟨.A, (r : Int), k, (r : Int) * (n : Int) + k⟩ : Access),
        ⟨.B, k, ((jj + c : Nat) : Int), k * (n : Int) + ((jj + c : Nat) : Int)⟩]) :
        Except Fault (List Access)))
    bs (fun _ (l : List Access) => ∀ a ∈ l, a.InRange (n : Int))
    (l1 ++ [⟨.C, (r : Int), ((jj + c : Nat) : Int), (r : Int) * (n : Int) + ((jj + c : Nat) : Int)⟩])
    rfl
    (by
      intro a ha
      rcases List.mem_append.mp ha with h | h
      · exact hl1 a h
      · have : a = ⟨.C, (r : Int), ((jj + c : Nat) : Int),
            (r : Int) * (n : Int) + ((jj + c : Nat) : Int)⟩ := by simpa using h
        rw [this]
        exact inRange_mk .C hr hj)
    (by
      intro t l2 ht hl2
      have hk : K + t < n := by omega
      have ek : (K : Int) + (t : Int) = ((K + t : Nat) : Int) := by push_cast; ring
      refine ⟨_, rfl, ?_⟩
      intro a ha
      rw [ek] at ha
      rcases List.mem_append.mp ha with h | h
      · exact hl2 a h
      · simp only [List.mem_cons, List.mem_singleton, List.not_mem_nil, or_false] at h
        rcases h with h | h
        · rw [h]
          exact inRange_mk .A hr hk
        · rw [h]
          exact inRange_mk .B hk hj)
  rw [h2]
  refine ⟨_, rfl, ?_⟩
  intro a ha
  rcases List.mem_append.mp ha with h | h
  · exact h3 a h
  · have : a = ⟨.C, (r : Int), ((jj + c : Nat) : Int),
        (r : Int) * (n : Int) + ((jj + c : Nat) : Int)⟩ := by simpa using h
    rw [this]
    exact inRange_mk .C hr hj

theorem blockedAccesses_inRange (n bs m : Nat) (hbs : 0 < bs) (hn : n = m * bs) (fuel : Nat)
    (hfuel : m ≤ fuel) :
    ∃ log, blockedAccesses fuel (n : Int) (bs : Int) = .ok log ∧
      ∀ a ∈ log, a.InRange (n : Int) := by
  unfold blockedAccesses
  have h0 : ¬ ((bs : Int) = 0) := by
    have : bs ≠ 0 := by omega
    exact_mod_cast this
  have h1 : Int.tmod (n : Int) (bs : Int) = 0 := by
    rw [hn, ← Int.ofNat_tmod]
    simp
  have hlt : ∀ t : Nat, t < m → (0 : Int) + (t : Int) * (bs : Int) < (n : Int) := by
    intro t ht
    have h : t * bs < m * bs := Nat.mul_lt_mul_of_pos_right ht hbs
    rw [hn]
    have h2 : ((t * bs : Nat) : Int) < ((m * bs : Nat) : Int) := by exact_mod_cast h
    simpa using h2
  have hhi : (n : Int) ≤ 0 + (m : Int) * (bs : Int) := by
    rw [hn]
    simp
  have htile : ∀ t : Nat, t < m → t * bs + bs ≤ n := by
    intro t ht
    have h : (t + 1) * bs ≤ m * bs := Nat.mul_le_mul_right bs ht
    have h2 : (t + 1) * bs = t * bs + bs := by ring
    omega
  have e : ∀ t : Nat, (0 : Int) + (t : Int) * (bs : Int) = ((t * bs : Nat) : Int) := by
    intro t
    push_cast
    ring
  simp only [h0, h1, if_false, ne_eq, not_true_eq_false]
  refine forLoop_inv _ _ _ m (fun _ (l : List Access) => ∀ a ∈ l, a.InRange (n : Int)) fuel 0 _ hfuel hlt hhi
    (by simp) ?_
  intro t l ht hl
  refine forLoop_inv _ _ _ m (fun _ (l : List Access) => ∀ a ∈ l, a.InRange (n : Int)) fuel 0 _ hfuel hlt hhi
    hl ?_
  intro u l1 hu hl1
  simp only [e]
  exact tileAccesses_inRange n bs (t * bs) (u * bs) (htile t ht) (htile u hu) l1 hl1

end TraceLemmas

/-! ## The line reader -/

section ReaderLemmas

variable {α : Type}

theorem forLoop_error {σ : Type} (hi step : Int) (body : Int → σ → Except Fault σ)
    (e : Fault) :
    ∀ (m : Nat) (Inv : Nat → σ → Prop) (fuel : Nat) (lo : Int) (s : σ), m < fuel →
      (∀ t : Nat, t ≤ m → lo + t * step < hi) → Inv 0 s →
      (∀ (t : Nat) (s : σ), t < m → Inv t s →
        ∃ s1, body (lo + t * step) s = .ok s1 ∧ Inv (t + 1) s1) →
      (∀ s, Inv m s → body (lo + m * step) s = .error e) →
      forLoop hi step body fuel lo s = .error e := by
  intro m
  induction m with
  | zero =>
    intro Inv fuel lo s hfuel hlt h0 _ hfail
    obtain ⟨fuel, rfl⟩ : ∃ f, fuel = f + 1 := ⟨fuel - 1, by omega⟩
    have hlo : lo < hi := by simpa using hlt 0 le_rfl
    have hb : body lo s = .error e := by simpa using hfail s h0
    rw [forLoop_succ _ _ _ _ _ _ hlo, hb]
  | succ m ih =>
    intro Inv fuel lo s hfuel hlt h0 hstep hfail
    obtain ⟨fuel, rfl⟩ : ∃ f, fuel = f + 1 := ⟨fuel - 1, by omega⟩
    have hlo : lo < hi := by simpa using hlt 0 (by omega)
    obtain ⟨s1, hb, h1⟩ := hstep 0 s (by omega) h0
    have hb1 : body lo s = .ok s1 := by simpa using hb
    rw [forLoop_succ _ _ _ _ _ _ hlo, hb1]
    refine ih (fun t => Inv (t + 1)) fuel (lo + step) s1 (by omega) ?_ h1 ?_ ?_
    · intro t ht
      have := hlt (t + 1) (by omega)
      push_cast at this
      linarith
    · intro t s ht hinv
      obtain ⟨s3, hb3, h3⟩ := hstep (t + 1) s (by omega) hinv
      refine ⟨s3, ?_, h3⟩
      rw [← hb3]
      congr 1
      push_cast
      ring
    · intro s hs
      rw [← hfail s hs]
      congr 1
      push_cast
      ring

theorem forUnit_error {σ : Type} (lo hi : Int) (body : Int → σ → Except Fault σ) (e : Fault)
    (m total : Nat) (Inv : Nat → σ → Prop) (s : σ) (htotal : hi = lo + total)
    (hm : m < total) (h0 : Inv 0 s)
    (hstep : ∀ (t : Nat) (s : σ), t < m → Inv t s →
      ∃ s1, body (lo + t) s = .ok s1 ∧ Inv (t + 1) s1)
    (hfail : ∀ s, Inv m s → body (lo + m) s = .error e) :
    forUnit lo hi body s = .error e := by
  have hfuel : (hi - lo).toNat = total := by rw [htotal]; simp
  unfold forUnit
  rw [hfuel]
  refine forLoop_error hi 1 body e m Inv total lo s hm ?_ h0 ?_ ?_
  · intro t ht
    rw [htotal]
    have : (t : Int) < total := by exact_mod_cast (by omega : t < total)
    linarith
  · intro t s ht hinv
    simpa using hstep t s ht hinv
  · intro s hs
    simpa using hfail s hs

theorem takeWhile_comma_free (f : List Char) (hf : ',' ∉ f) :
    f.takeWhile (fun x => x != ',') = f ∧ f.dropWhile (fun x => x != ',') = [] := by
  induction f with
  | nil => simp
  | cons c f ih =>
    have hc : c ≠ ',' := fun h => hf (by simp [h])
    have hf1 : ',' ∉ f := fun h => hf (List.mem_cons_of_mem _ h)
    obtain ⟨h1, h2⟩ := ih hf1
    simp [List.takeWhile_cons, List.dropWhile_cons, hc, h1, h2]

theorem takeWhile_before_comma (f rest : List Char) (hf : ',' ∉ f) :
    (f ++ ',' :: rest).takeWhile (fun x => x != ',') = f ∧
      (f ++ ',' :: rest).dropWhile (fun x => x != ',') = ',' :: rest := by
  induction f with
  | nil => simp
  | cons c f ih =>
    have hc : c ≠ ',' := fun h => hf (by simp [h])
    have hf1 : ',' ∉ f := fun h => hf (List.mem_cons_of_mem _ h)
    obtain ⟨h1, h2⟩ := ih hf1
    simp [List.takeWhile_cons, List.dropWhile_cons, hc, h1, h2]

theorem getline_of_ne_nil (l : List Char) (h : l ≠ []) :
    getline l = some (l.takeWhile (fun x => x != ','),
      (l.dropWhile (fun x => x != ',')).drop 1) := by
  cases l with
  | nil => exact absurd rfl h
  | cons c cs => rfl

/-- Reading one field off a line: `getline` gives the first field and leaves the line made of
the others. -/
theorem getline_joinFields (f : List Char) (fs : List (List Char)) (hne : f ≠ [])
    (hf : ',' ∉ f) : getline (joinFields (f :: fs)) = some (f, joinFields fs) := by
  cases fs with
  | nil =>
    obtain ⟨h1, h2⟩ := takeWhile_comma_free f hf
    rw [show joinFields [f] = f from rfl, getline_of_ne_nil f hne, h1, h2]
    rfl
  | cons g gs =>
    obtain ⟨h1, h2⟩ := takeWhile_before_comma f (joinFields (g :: gs)) hf
    rw [show joinFields (f :: g :: gs) = f ++ ',' :: joinFields (g :: gs) from rfl,
      getline_of_ne_nil _ (by simp), h1, h2]
    rfl

theorem toNat_sq_int (n : Int) : n * n = 0 + (((n * n).toNat : Nat) : Int) := by
  rw [Int.toNat_of_nonneg (mul_self_nonneg n)]
  ring

/-- The loop of `readMatrixLine` over a line with enough fields: it stores the first `m`
values and leaves the others unread. -/
theorem readLoop_ok (stod : List Char → Except Fault α) (zero : α) (n : Int)
    (fields : List (List Char × α))
    (hf : ∀ p ∈ fields, p.1 ≠ [] ∧ ',' ∉ p.1 ∧ stod p.1 = .ok p.2)
    (hm : (n * n).toNat ≤ fields.length) :
    ∃ st, forUnit 0 (n * n) (fun i (st : List Char × List α) =>
          match getline st.1 with
          | none => .error .missingMatrixValues
          | some (token, ss) =>
            match stod token with
            | .error e => .error e
            | .ok v =>
              match writeAt st.2 i v with
              | .error e => .error e
              | .ok matrix => .ok (ss, matrix))
        (joinFields (fields.map Prod.fst), List.replicate (n * n).toNat zero) = .ok st ∧
      st.2 = (fields.map Prod.snd).take (n * n).toNat := by
  refine ok_weaken (forUnit_inv _ _ _ (n * n).toNat
    (fun t (st : List Char × List α) =>
      st.1 = joinFields ((fields.drop t).map Prod.fst) ∧ st.2.length = (n * n).toNat ∧
        ∀ idx, idx < t → st.2[idx]? = (fields.map Prod.snd)[idx]?)
    _ (toNat_sq_int n) ?_ ?_) ?_
  · exact ⟨by simp, by simp, fun idx h => absurd h (Nat.not_lt_zero _)⟩
  · rintro t ⟨ss, M⟩ ht ⟨h1, h2, h3⟩
    simp only at h1 h2 h3
    have htl : t < fields.length := by omega
    have hdrop : fields.drop t = fields[t] :: fields.drop (t + 1) :=
      List.drop_eq_getElem_cons htl
    obtain ⟨hp1, hp2, hp3⟩ := hf fields[t] (List.getElem_mem htl)
    have hg : getline ss = some ((fields[t]).1,
        joinFields ((fields.drop (t + 1)).map Prod.fst)) := by
      rw [h1, hdrop, List.map_cons]
      exact getline_joinFields _ _ hp1 hp2
    have hw : writeAt M ((0 : Int) + (t : Int)) (fields[t]).2 = .ok (M.set t (fields[t]).2) := by
      rw [zero_add]
      exact writeAt_nat M t _ (by omega)
    refine ⟨(joinFields ((fields.drop (t + 1)).map Prod.fst), M.set t (fields[t]).2), ?_, rfl,
      by simp [h2], ?_⟩
    · simp only [hg, hp3, hw]
    · intro idx hidx
      simp only [List.getElem?_set]
      by_cases e : t = idx
      · subst e
        have htM : t < M.length := by omega
        simp [htM, List.getElem?_map, List.getElem?_eq_getElem htl]
      · simp only [e, if_false]
        exact h3 idx (by omega)
  · rintro ⟨ss, M⟩ ⟨_, h2, h3⟩
    simp only at h2 h3 ⊢
    apply List.ext_getElem?
    intro idx
    by_cases h : idx < (n * n).toNat
    · rw [h3 idx h, List.getElem?_take_of_lt h]
    · have h4 : M.length ≤ idx := by omega
      rw [List.getElem?_eq_none h4, List.getElem?_eq_none]
      simp only [List.length_take, List.length_map]
      omega

/-- The loop of `readMatrixLine` over a line with too few fields: the read that finds the
line used up throws. -/
theorem readLoop_missing (stod : List Char → Except Fault α) (zero : α) (n : Int)
    (fields : List (List Char × α))
    (hf : ∀ p ∈ fields, p.1 ≠ [] ∧ ',' ∉ p.1 ∧ stod p.1 = .ok p.2)
    (hm : fields.length < (n * n).toNat) :
    forUnit 0 (n * n) (fun i (st : List Char × List α) =>
          match getline st.1 with
          | none => .error .missingMatrixValues
          | some (token, ss) =>
            match stod token with
            | .error e => .error e
            | .ok v =>
              match writeAt st.2 i v with
              | .error e => .error e
              | .ok matrix => .ok (ss, matrix))
        (joinFields (fields.map Prod.fst), List.replicate (n * n).toNat zero)
      = .error .missingMatrixValues := by
  refine forUnit_error _ _ _ _ fields.length (n * n).toNat
    (fun t (st : List Char × List α) =>
      st.1 = joinFields ((fields.drop t).map Prod.fst) ∧ st.2.length = (n * n).toNat)
    _ (toNat_sq_int n) hm ?_ ?_ ?_
  · exact ⟨by simp, by simp⟩
  · rintro t ⟨ss, M⟩ ht ⟨h1, h2⟩
    simp only at h1 h2
    have hdrop : fields.drop t = fields[t] :: fields.drop (t + 1) :=
      List.drop_eq_getElem_cons ht
    obtain ⟨hp1, hp2, hp3⟩ := hf fields[t] (List.getElem_mem ht)
    have hg : getline ss = some ((fields[t]).1,
        joinFields ((fields.drop (t + 1)).map Prod.fst)) := by
      rw [h1, hdrop, List.map_cons]
      exact getline_joinFields _ _ hp1 hp2
    have hw : writeAt M ((0 : Int) + (t : Int)) (fields[t]).2 = .ok (M.set t (fields[t]).2) := by
      rw [zero_add]
      exact writeAt_nat M t _ (by omega)
    refine ⟨(joinFields ((fields.drop (t + 1)).map Prod.fst), M.set t (fields[t]).2), ?_, rfl,
      by simp [h2]⟩
    simp only [hg, hp3, hw]
  · rintro ⟨ss, M⟩ ⟨h1, _⟩
    simp only at h1
    have : ss = [] := by
      rw [h1, List.drop_length]
      rfl
    simp [this, getline]

end ReaderLemmas

/-! ## The claims -/

section Claims

variable {α : Type}

/-- C3: for `n ≥ 1` and a positive `blockSize` that does not divide `n`,
`multiplyMatricesBlocked` ends with the invalid-block-size error whatever `A` and `B` are
(of any length, so no cell was read) and whatever the fuel (even none, so no loop was
entered): no output vector is produced. -/
theorem multiplyMatricesBlocked_nondividing (zero : α) (add mul : α → α → α) (fuel : Nat)
    (A B : List α) (n blockSize : Int) (hn : 1 ≤ n) (hbs : 0 < blockSize)
    (hdiv : n % blockSize ≠ 0) :
    multiplyMatricesBlocked zero add mul fuel A B n blockSize = .error .invalidBlockSize := by
  have h0 : ¬ blockSize = 0 := by omega
  have h1 : Int.tmod n blockSize ≠ 0 := by
    rw [Int.tmod_eq_emod (by omega) (by omega)]
    exact hdiv
  simp [multiplyMatricesBlocked, h0, h1]

/-- C3 at `n = 10`, `blockSize = 3`, on empty vectors and without fuel. -/
theorem multiplyMatricesBlocked_nondividing_witness :
    (1 : Int) ≤ 10 ∧ (0 : Int) < 3 ∧ (10 : Int) % 3 ≠ 0 ∧
    multiplyMatricesBlocked (0 : Int) (fun x y => x + y) (fun x y => x * y) 0 [] [] 10 3
      = .error .invalidBlockSize :=
  ⟨by decide, by decide, by decide,
    multiplyMatricesBlocked_nondividing 0 _ _ 0 [] [] 10 3 (by decide) (by decide) (by decide)⟩

/-- C4, at the failing inputs: with `n = 4` and `blockSize = -2` the check `n % blockSize`
passes and the call neither returns nor throws, however much fuel it is given; with
`blockSize = 0` the remainder `n % 0` is a division fault.  Neither ends with the
invalid-block-size error. -/
theorem multiplyMatricesBlocked_nonpositive :
    (∀ fuel, multiplyMatricesBlocked (0 : Int) (fun x y => x + y) (fun x y => x * y) fuel
        (List.replicate 16 1) (List.replicate 16 1) 4 (-2) = .error .outOfFuel) ∧
    (∀ fuel, multiplyMatricesBlocked (0 : Int) (fun x y => x + y) (fun x y => x * y) fuel
        (List.replicate 16 1) (List.replicate 16 1) 4 0 = .error .divisionByZero) := by
  constructor
  · intro fuel
    exact multiplyMatricesBlocked_negative 0 _ _ _ _ 4 (-2) (by decide) (by decide)
      (by decide) fuel
  · intro fuel
    simp [multiplyMatricesBlocked]

/-- C5, refuted for the multipliers: on `A` of `3 * 3` and `B` of `4 * 4` elements, called
with `n = 3`, both multipliers return a product (of `A` and the leading nine elements of
`B`) and no error; called with `n = 4`, `multiplyMatrices` reads `A` past its end. -/
theorem multipliers_no_dimension_check :
    multiplyMatrices (0 : Int) (fun x y => x + y) (fun x y => x * y) (List.replicate 9 1)
        (List.replicate 16 1) 3 = .ok (List.replicate 9 3) ∧
    multiplyMatricesBlocked (0 : Int) (fun x y => x + y) (fun x y => x * y) 3
        (List.replicate 9 1) (List.replicate 16 1) 3 1 = .ok (List.replicate 9 3) ∧
    multiplyMatrices (0 : Int) (fun x y => x + y) (fun x y => x * y) (List.replicate 9 1)
        (List.replicate 16 1) 4 = .error .outOfBounds :=
  ⟨rfl, rfl, rfl⟩

/-- C5, amended: the dimension check is made by the harness.  For every index `i` of the list
of parsed matrices with `sizes[i] != sizes[i + 1]`, no call of `multiplyMatrices` or of
`multiplyMatricesBlocked` is made for the pair at `i`. -/
theorem harness_skips_mismatched_pair (zero : α) (add mul : α → α → α) (fuel : Nat)
    (parsed : List (Int × List α)) (blockSize : Int) (i : Nat) (n n1 : Int) (A B : List α)
    (h0 : parsed[i]? = some (n, A)) (h1 : parsed[i + 1]? = some (n1, B)) (hne : n ≠ n1) :
    ∀ c ∈ (harness zero add mul fuel parsed blockSize).1, c.pair ≠ i := by
  intro c hc hpair
  obtain ⟨m, A1, B1, e0, e1⟩ := harness_calls zero add mul fuel parsed blockSize c hc
  rw [hpair, h0] at e0
  rw [hpair, h1] at e1
  simp only [Option.some.injEq, Prod.mk.injEq] at e0 e1
  exact hne (e0.1.trans e1.1.symm)

/-- C5, amended, on four parsed matrices of sizes `1, 1, 1, 2`: the pair at index `2` is
skipped, the calls made are the ten runs on the pair at index `0`. -/
theorem harness_skips_mismatched_pair_witness :
    (harness (0 : Int) (fun x y => x + y) (fun x y => x * y) 1
        [(1, [2]), (1, [3]), (1, [4]), (2, [1, 2, 3, 4])] 0).1
      = List.replicate 10 ⟨0, false⟩ ∧
    ∀ c ∈ (harness (0 : Int) (fun x y => x + y) (fun x y => x * y) 1
        [(1, [2]), (1, [3]), (1, [4]), (2, [1, 2, 3, 4])] 0).1, c.pair ≠ 2 :=
  ⟨rfl, harness_skips_mismatched_pair (0 : Int) _ _ 1
    [(1, [2]), (1, [3]), (1, [4]), (2, [1, 2, 3, 4])] 0 2 1 2 [4] [1, 2, 3, 4] rfl rfl
    (by decide)⟩

end Claims

end CacheBenchmark
